import Mathlib

/-!
Verification of the speedml `Feature` component (src/speedml/feature.py).

The component operates on a pair of pandas dataframes (`Base.train`,
`Base.test`) sharing a schema except for the target column, which only
`train` carries.  We embed a dataframe as an association list from column
names to lists of cell values, in column order, exactly as pandas exposes
it for the operations used by the source: column read (`df[c]`), column
assignment (`df[c] = ...`, which overwrites in place or appends a new
column at the end), column drop, row-wise `append`, and row slicing.

Cell values are embedded by `Val`: IEEE-style numbers (`PFloat`: a finite
rational, plus infinities and NaN, which is how pandas stores numerics and
missing values), text as character lists, list-valued cells, and a null
sentinel.  Operations the source applies only to cells of one kind are
totalised with `Val.null` on the other kinds; no claim exercises those
branches (pandas would raise there).

`Base.data_n()` is an external schema-refresh callback (speedml/base.py);
each embedded operation returns, alongside the new state, the number of
times the source invokes it.  Returned human-readable status strings are
not modelled; the diagnostic counts printed by `outliers_fix` are.
-/

set_option maxHeartbeats 1000000

namespace Speedml

/-- IEEE-754-style abstraction of a pandas float cell: a finite rational,
positive or negative infinity, or NaN. -/
inductive PFloat : Type where
  | num (q : ℚ)
  | inf
  | negInf
  | nan
deriving DecidableEq

/-- A dataframe cell: a number, a text value, a list-of-strings value, or
the null sentinel for genuinely absent values. -/
inductive Val : Type where
  | num (x : PFloat)
  | str (s : List Char)
  | lst (l : List (List Char))
  | null
deriving DecidableEq

/-- A dataframe: named columns in order, each a list of cell values
(row-aligned). -/
abbrev DF (α : Type) : Type := List (String × List α)

/-- The list of column names of a dataframe, in order. -/
def colsL {α : Type} (df : DF α) : List String := df.map Prod.fst

/-- Read a column by name (`df[c]`); empty if the name is absent (pandas
raises there, a branch no claim exercises). -/
def getCol {α : Type} : DF α → String → List α
  | [], _ => []
  | c :: rest, n => if c.1 = n then c.2 else getCol rest n

/-- Column assignment `df[n] = vs`: overwrite the column in place if the
name exists, otherwise append it at the end, as pandas does. -/
def setCol {α : Type} (df : DF α) (n : String) (vs : List α) : DF α :=
  if n ∈ colsL df then df.map (fun c => if c.1 = n then (n, vs) else c)
  else df ++ [(n, vs)]

/-- `df.drop(names, axis=1)`: remove the named columns. -/
def dropCols {α : Type} (df : DF α) (names : List String) : DF α :=
  df.filter (fun c => decide (c.1 ∉ names))

/-- `df.shape[0]`: the row count, read off the first column. -/
def nrows {α : Type} : DF α → ℕ
  | [] => 0
  | c :: _ => c.2.length

/-- Row slice `df[0:n]`. -/
def dfTake {α : Type} (n : ℕ) (df : DF α) : DF α :=
  df.map (fun c => (c.1, c.2.take n))

/-- Row slice `df[n::]`. -/
def dfDrop {α : Type} (n : ℕ) (df : DF α) : DF α :=
  df.map (fun c => (c.1, c.2.drop n))

/-- `df1.append(df2)` for frames with the same column set: keep `df1`'s
column order and concatenate the rows of each column. -/
def rowAppend {α : Type} (df1 df2 : DF α) : DF α :=
  df1.map (fun c => (c.1, c.2 ++ getCol df2 c.1))

/-- The shared state of the component: `Base.train`, `Base.test`, and the
target column name `Base.target`. -/
structure St (α : Type) where
  train : DF α
  test : DF α
  target : String
deriving DecidableEq

/-- The schema invariant of the data model: `train` carries the target
column, `test` does not, and apart from the target the two tables have
identical column sets. -/
def Inv {α : Type} (s : St α) : Prop :=
  s.target ∈ colsL s.train ∧ s.target ∉ colsL s.test ∧
  (∀ c ∈ colsL s.train, c ≠ s.target → c ∈ colsL s.test) ∧
  (∀ c ∈ colsL s.test, c ∈ colsL s.train)

instance {α : Type} (s : St α) : Decidable (Inv s) := by
  unfold Inv; infer_instance

/-- IEEE-style addition on our float abstraction (`series_a + series_b`). -/
def padd : PFloat → PFloat → PFloat
  | .nan, _ => .nan
  | _, .nan => .nan
  | .inf, .negInf => .nan
  | .negInf, .inf => .nan
  | .inf, _ => .inf
  | _, .inf => .inf
  | .negInf, _ => .negInf
  | _, .negInf => .negInf
  | .num a, .num b => .num (a + b)

/-- IEEE-style negation. -/
def pneg : PFloat → PFloat
  | .num q => .num (-q)
  | .inf => .negInf
  | .negInf => .inf
  | .nan => .nan

/-- IEEE-style subtraction (`series_a - series_b`). -/
def psub (a b : PFloat) : PFloat := padd a (pneg b)

/-- IEEE-style multiplication (`series_a * series_b`). -/
def pmul : PFloat → PFloat → PFloat
  | .nan, _ => .nan
  | _, .nan => .nan
  | .inf, .inf => .inf
  | .inf, .negInf => .negInf
  | .negInf, .inf => .negInf
  | .negInf, .negInf => .inf
  | .inf, .num b => if b = 0 then .nan else if 0 < b then .inf else .negInf
  | .num a, .inf => if a = 0 then .nan else if 0 < a then .inf else .negInf
  | .negInf, .num b => if b = 0 then .nan else if 0 < b then .negInf else .inf
  | .num a, .negInf => if a = 0 then .nan else if 0 < a then .negInf else .inf
  | .num a, .num b => .num (a * b)

/-- IEEE-style division (`series_a / series_b`): a finite value divided by
zero gives a signed infinity, except `0 / 0` which gives NaN. -/
def pdiv : PFloat → PFloat → PFloat
  | .nan, _ => .nan
  | _, .nan => .nan
  | .inf, .inf => .nan
  | .inf, .negInf => .nan
  | .negInf, .inf => .nan
  | .negInf, .negInf => .nan
  | .inf, .num b => if b < 0 then .negInf else .inf
  | .negInf, .num b => if b < 0 then .inf else .negInf
  | .num _, .inf => .num 0
  | .num _, .negInf => .num 0
  | .num a, .num b =>
      if b = 0 then (if a = 0 then .nan else if 0 < a then .inf else .negInf)
      else .num (a / b)

/-- Lift a float binary operation to cells; non-numeric operands are
totalised with `null` (pandas raises there; no claim reaches it). -/
def vlift2 (f : PFloat → PFloat → PFloat) : Val → Val → Val
  | .num a, .num b => .num (f a b)
  | _, _ => .null

/-- `.replace([np.inf, -np.inf], 0)` applied to one cell: only the two
infinities are replaced; every other cell (NaN included) is kept. -/
def replaceInfZero : Val → Val
  | .num .inf => .num (.num 0)
  | .num .negInf => .num (.num 0)
  | v => v

/-- Round-half-to-even on a rational, as `np.round` does on floats. -/
def roundHalfEvenZ (q : ℚ) : ℤ :=
  if q - ⌊q⌋ < 1/2 then ⌊q⌋
  else if (1 : ℚ)/2 < q - ⌊q⌋ then ⌊q⌋ + 1
  else if Even ⌊q⌋ then ⌊q⌋ else ⌊q⌋ + 1

/-- Rounding to `p` decimal places (`round(x, p)`). -/
def roundDec (p : ℕ) (q : ℚ) : ℚ := (roundHalfEvenZ (q * 10 ^ p) : ℚ) / 10 ^ p

/-- `round` on a float cell: finite values are rounded, infinities and NaN
are fixed points, as in numpy. -/
def roundPF (p : ℕ) : PFloat → PFloat
  | .num q => .num (roundDec p q)
  | x => x

/-- `round` on a cell; non-numeric cells are totalised with `null`. -/
def roundVal (p : ℕ) : Val → Val
  | .num x => .num (roundPF p x)
  | _ => .null

/-- Python's `text.split(sep)` for a single-character separator: empty
chunks are kept, and the empty string yields one empty chunk. -/
def pySplit (sep : Char) : List Char → List (List Char)
  | [] => [[]]
  | c :: rest =>
    let r := pySplit sep rest
    if c = sep then [] :: r
    else
      match r with
      | [] => [[c]]
      | h :: t => (c :: h) :: t

/-- `len(x.split(" "))` on a text cell; non-text cells are totalised with
`null` (Python would raise `AttributeError` there). -/
def wordCountVal : Val → Val
  | .str s => .num (.num ((pySplit ' ' s).length : ℚ))
  | _ => .null

/-- `len(x)` on a list-valued cell; totalised with `null` elsewhere. -/
def listLenVal : Val → Val
  | .lst l => .num (.num (l.length : ℚ))
  | _ => .null

/-- Python `str(value)` coercion used by `astype(str)`.  Text cells render
as themselves; the decimal rendering of the other cell kinds is irrelevant
to every claim and is totalised with the empty string. -/
def valToStr : Val → List Char
  | .str s => s
  | _ => []

/-- `Feature._regex_text`: return the first captured group if the regular
expression matches, otherwise the empty string.  The regex engine itself is
an external library (`re`), passed in as the opaque `search` function
returning the first captured group on a match. -/
def regexText (search : List Char → Option (List Char)) (text : List Char) :
    List Char :=
  match search text with
  | some g => g
  | none => []

/-- Apply a text-to-text function to a text cell; totalised with `null`. -/
def vmapStr (f : List Char → List Char) : Val → Val
  | .str s => .str (f s)
  | _ => .null

/-- `sklearn.LabelEncoder().fit_transform` code of one value: its index in
the list of distinct values of the fitted column.  (sklearn numbers the
classes in sorted order; we number them in first-occurrence order, a
permutation of the codes that no property stated here can observe.) -/
def labelCode (vs : List Val) (v : Val) : Val :=
  .num (.num ((vs.dedup).indexOf v : ℚ))

/-- `fit_transform` over a whole column. -/
def labelEncode (vs : List Val) : List Val := vs.map (labelCode vs)

/-- `dict.get(x, default)` path of a Python dict lookup. -/
def dictGet (m : List (Val × Val)) (v : Val) : Option Val :=
  (m.find? (fun p => p.1 == v)).map Prod.snd

/-- `series.apply(lambda x: m[x])`: map a column through a dict, failing
(Python `KeyError`) as soon as a value has no entry. -/
def mapCol (m : List (Val × Val)) : List Val → Option (List Val)
  | [] => some []
  | v :: rest =>
    match dictGet m v, mapCol m rest with
    | some w, some ws => some (w :: ws)
    | _, _ => none

/-- Missing-value test used by imputation: nulls and NaNs are missing. -/
def isMissing : Val → Bool
  | .null => true
  | .num .nan => true
  | _ => false

/-- A column is a text (object-dtype) column if it holds any text cell. -/
def colIsText (vs : List Val) : Bool :=
  vs.any (fun v => match v with | .str _ => true | _ => false)

/-- The finite numeric values of a column. -/
def finiteVals (vs : List Val) : List ℚ :=
  vs.filterMap (fun v => match v with | .num (.num q) => some q | _ => none)

/-- Median of a list of rationals (mean of the two middle elements for an
even length, as pandas computes it); junk 0 on the empty list. -/
def medianQ (xs : List ℚ) : ℚ :=
  let s := xs.insertionSort (· ≤ ·)
  let n := s.length
  if n = 0 then 0
  else if n % 2 = 1 then s.getD (n / 2) 0
  else (s.getD (n / 2 - 1) 0 + s.getD (n / 2) 0) / 2

/-- Most frequent non-missing value of a column; `null` on a column with
no present value. -/
def modeVal (vs : List Val) : Val :=
  let present := vs.filter (fun v => !isMissing v)
  (present.dedup.foldl
    (fun best v =>
      match best with
      | none => some v
      | some b => if present.count b < present.count v then some v else best)
    none).getD Val.null

/-- Modelled from the spec: `DataFrameImputer.fit_transform`
(speedml/util.py, which is not under src/) fills missing values column by
column — the column's median over the combined train+test column for
numeric columns, the column's most frequent value for text columns — and
leaves the column set unchanged. -/
def imputeFill (vs : List Val) : List Val :=
  if colIsText vs then vs.map (fun v => if isMissing v then modeVal vs else v)
  else
    vs.map (fun v =>
      if isMissing v then Val.num (.num (medianQ (finiteVals vs))) else v)

/-- The per-cell lookup `dvals.get(x, vals.min())` of `Feature.density`,
where `vals = train[col].value_counts()`.  pandas `value_counts()` drops
missing values (NaN/None), so the dictionary holds only the present values
of train's column with their frequencies among the present values; a
present value found there maps to its frequency, and anything else — a
value unseen in train or a missing cell — maps to `vals.min()`, the least
of those frequencies (the NaN of an empty series minimum when the column
has no present value at all). -/
def densityGet (vs : List Val) (x : Val) : Val :=
  let vsp := vs.filter (fun v => !isMissing v)
  if x ∈ vsp then Val.num (.num (vsp.count x : ℚ))
  else
    match ((vsp.dedup).map (fun v => vsp.count v)).min? with
    | some mn => Val.num (.num (mn : ℚ))
    | none => Val.num .nan

/-- `np.percentile(values, q)` with the default linear interpolation:
on the sorted values `s` of length `n`, the value at fractional rank
`h = q/100 * (n-1)`. -/
def percentile (xs : List ℚ) (q : ℚ) : ℚ :=
  let s := xs.insertionSort (· ≤ ·)
  let n := s.length
  if n = 0 then 0
  else
    let h : ℚ := q / 100 * ((n : ℚ) - 1)
    let i : ℕ := (⌊h⌋).toNat
    if i + 1 < n then s.getD i 0 + (h - (i : ℚ)) * (s.getD (i + 1) 0 - s.getD i 0)
    else s.getD (n - 1) 0

/-- Result of `Feature.outliers_fix`: the new state, the number of
`Base.data_n()` invocations, and the printed diagnostics, one
`(rows changed, percentage)` pair per executed branch. -/
structure OFRes : Type where
  st : St ℚ
  dataN : ℕ
  reports : List (ℕ × ℚ)
deriving DecidableEq

namespace Feature

/-- `Feature.drop`: drop the named features from both tables.  (The
returned status string is not modelled; the second component counts
`Base.data_n()` calls.) -/
def drop (features : List String) (s : St Val) : St Val × ℕ :=
  ({ s with
      train := dropCols s.train features,
      test := dropCols s.test features }, 1)

/-- `Feature.impute`: attach a placeholder target of `-1` to test, append
test to train, impute the combined frame (`DataFrameImputer`), split it
back by the original train row count, and drop the target from test. -/
def impute (s : St Val) : St Val × ℕ :=
  let test1 := setCol s.test s.target
    (List.replicate (nrows s.test) (Val.num (.num (-1))))
  let combine := rowAppend s.train test1
  let combine1 := combine.map (fun c => (c.1, imputeFill c.2))
  let n := nrows s.train
  ({ s with
      train := dfTake n combine1,
      test := dropCols (dfDrop n combine1) [s.target] }, 1)

/-- `Feature.ordinal_to_numeric`: map column `a` through the dictionary in
train, then in test.  A missing entry raises a Python `KeyError` before
the offending assignment: the error value carries the state at the point
of failure (train already mapped when the failure is in test). -/
def ordinal_to_numeric (a : String) (m : List (Val × Val)) (s : St Val) :
    Except (St Val) (St Val × ℕ) :=
  match mapCol m (getCol s.train a) with
  | none => .error s
  | some tv =>
    let s1 := { s with train := setCol s.train a tv }
    match mapCol m (getCol s1.test a) with
    | none => .error s1
    | some wv => .ok ({ s1 with test := setCol s1.test a wv }, 1)

/-- `Feature.outliers_fix`: for each of the `upper` and `lower` arguments
that is truthy (`if upper:` / `if lower:`, so neither `None` nor `0`),
compute that percentile of column `a` over train, clamp the train values
beyond it, call `Base.data_n()`, and print the count and percentage of
rows changed.  The upper branch runs first; test is never touched. -/
def outliers_fix (a : String) (lower upper : Option ℚ) (s : St ℚ) : OFRes :=
  let step1 : OFRes :=
    match upper with
    | some u =>
      if u = 0 then ⟨s, 0, []⟩
      else
        let uv := percentile (getCol s.train a) u
        let change := ((getCol s.train a).filter (fun x => decide (uv < x))).length
        let tr := setCol s.train a
          ((getCol s.train a).map (fun x => if uv < x then uv else x))
        ⟨{ s with train := tr }, 1, [(change, (change : ℚ) / (nrows tr : ℚ) * 100)]⟩
    | none => ⟨s, 0, []⟩
  match lower with
  | some l =>
    if l = 0 then step1
    else
      let s1 := step1.st
      let lv := percentile (getCol s1.train a) l
      let change := ((getCol s1.train a).filter (fun x => decide (x < lv))).length
      let tr := setCol s1.train a
        ((getCol s1.train a).map (fun x => if x < lv then lv else x))
      ⟨{ s1 with train := tr }, step1.dataN + 1,
        step1.reports ++ [(change, (change : ℚ) / (nrows tr : ℚ) * 100)]⟩
  | none => step1

/-- `Feature.density`: add column `a + "_density"` to both tables, holding
for each row the `value_counts` frequency of that row's value in train's
column `a` (counted over the present values, since `value_counts()` drops
missing cells), with `vals.min()` as the dict-lookup default for missing
cells and for values unseen in train — see `densityGet`. -/
def density (a : String) (s : St Val) : St Val × ℕ :=
  ({ s with
      train := setCol s.train (a ++ "_density")
        ((getCol s.train a).map (densityGet (getCol s.train a))),
      test := setCol s.test (a ++ "_density")
        ((getCol s.test a).map (densityGet (getCol s.train a))) }, 1)

/-- Common shape of `Feature.sum` / `diff` / `product` / the first phase of
`divide`: create column `new` as an elementwise float operation on columns
`a` and `b` of each table. -/
def binOp (f : PFloat → PFloat → PFloat) (new a b : String) (s : St Val) :
    St Val × ℕ :=
  ({ s with
      train := setCol s.train new
        (List.zipWith (vlift2 f) (getCol s.train a) (getCol s.train b)),
      test := setCol s.test new
        (List.zipWith (vlift2 f) (getCol s.test a) (getCol s.test b)) }, 1)

/-- `Feature.sum`: `new = a + b`. -/
def sum (new a b : String) (s : St Val) : St Val × ℕ := binOp padd new a b s

/-- `Feature.diff`: `new = a - b`. -/
def diff (new a b : String) (s : St Val) : St Val × ℕ := binOp psub new a b s

/-- `Feature.product`: `new = a * b`. -/
def product (new a b : String) (s : St Val) : St Val × ℕ := binOp pmul new a b s

/-- `Feature.divide`: `new = a / b`, then replace `[np.inf, -np.inf]` with
`0` in the new column of each table. -/
def divide (new a b : String) (s : St Val) : St Val × ℕ :=
  let s1 := (binOp pdiv new a b s).1
  ({ s1 with
      train := setCol s1.train new ((getCol s1.train new).map replaceInfZero),
      test := setCol s1.test new ((getCol s1.test new).map replaceInfZero) }, 1)

/-- `Feature.round`: create `new` as column `a` rounded to `precision`
decimal places. -/
def round (new a : String) (precision : ℕ) (s : St Val) : St Val × ℕ :=
  ({ s with
      train := setCol s.train new ((getCol s.train a).map (roundVal precision)),
      test := setCol s.test new ((getCol s.test a).map (roundVal precision)) }, 1)

/-- `Feature.concat`: create `new` as `a.astype(str) + sep + b.astype(str)`
in both tables.  Note: the source calls no `Base.data_n()` here. -/
def concat (new a : String) (sep : List Char) (b : String) (s : St Val) :
    St Val × ℕ :=
  ({ s with
      train := setCol s.train new
        (List.zipWith (fun u v => Val.str (valToStr u ++ sep ++ valToStr v))
          (getCol s.train a) (getCol s.train b)),
      test := setCol s.test new
        (List.zipWith (fun u v => Val.str (valToStr u ++ sep ++ valToStr v))
          (getCol s.test a) (getCol s.test b)) }, 0)

/-- `Feature.list_len`: create `new` as `a.apply(len)` on a list-valued
column. -/
def list_len (new a : String) (s : St Val) : St Val × ℕ :=
  ({ s with
      train := setCol s.train new ((getCol s.train a).map listLenVal),
      test := setCol s.test new ((getCol s.test a).map listLenVal) }, 1)

/-- `Feature.word_count`: create `new` as
`a.apply(lambda x: len(x.split(" ")))`. -/
def word_count (new a : String) (s : St Val) : St Val × ℕ :=
  ({ s with
      train := setCol s.train new ((getCol s.train a).map wordCountVal),
      test := setCol s.test new ((getCol s.test a).map wordCountVal) }, 1)

/-- `Feature.regex_extract`: apply `_regex_text` to column `a` of both
tables, writing into `new` if given, else back into `a`.  Note: the source
calls no `Base.data_n()` here. -/
def regex_extract (a : String) (search : List Char → Option (List Char))
    (new : Option String) (s : St Val) : St Val × ℕ :=
  let tgt := match new with | some n => n | none => a
  ({ s with
      train := setCol s.train tgt
        ((getCol s.train a).map (vmapStr (regexText search))),
      test := setCol s.test tgt
        ((getCol s.test a).map (vmapStr (regexText search))) }, 0)

/-- `Feature.labels`: attach a placeholder target of `-1` to test, append
test to train, label-encode each named feature of the combined frame with
`LabelEncoder().fit_transform`, split back by the original train row
count, and drop the target from test. -/
def labels (features : List String) (s : St Val) : St Val × ℕ :=
  let test1 := setCol s.test s.target
    (List.replicate (nrows s.test) (Val.num (.num (-1))))
  let combine := rowAppend s.train test1
  let combine1 := features.foldl
    (fun df f => setCol df f (labelEncode (getCol df f))) combine
  let n := nrows s.train
  ({ s with
      train := dfTake n combine1,
      test := dropCols (dfDrop n combine1) [s.target] }, 1)

end Feature

/-- Following the spec's words for the word-count contract: the number of
whitespace-separated tokens of a text, i.e. the number of maximal nonempty
runs of non-whitespace characters (what Python's argumentless `split()`
counts).  Stated only to compare with the source's `split(" ")`. -/
def whitespaceTokenCount (s : List Char) : ℕ :=
  (s.splitOnP (fun c => c.isWhitespace)).countP (fun t => !t.isEmpty)

/-- A small concrete dataset satisfying the schema invariant: target "t"
in train only, shared columns "x" (text) and "y" (numeric). -/
def sW : St Val :=
  ⟨[("t", [.num (.num 1)]), ("x", [.str ['a']]), ("y", [.num (.num 2)])],
   [("x", [.str ['b']]), ("y", [.num (.num 4)])], "t"⟩

/-- A concrete dataset whose single row has `a = 0` and `b = 0`. -/
def sZZ : St Val :=
  ⟨[("t", [.num (.num 1)]), ("x", [.num (.num 0)]), ("y", [.num (.num 0)])],
   [("x", [.num (.num 0)]), ("y", [.num (.num 0)])], "t"⟩

/-- A concrete numeric dataset for the outlier operation. -/
def sQ : St ℚ := ⟨[("x", [5, 1, 3])], [("x", [2])], "t"⟩

/-- A concrete dataset with a text cell containing a double space. -/
def sTxt : St Val :=
  ⟨[("t", [.num (.num 1)]), ("txt", [.str ['a', ' ', ' ', 'b']])],
   [("txt", [.str ['c']])], "t"⟩

/-- A concrete dataset whose train column "x" holds two missing (NaN)
cells next to one present value. -/
def sNaN : St Val :=
  ⟨[("x", [.num .nan, .num .nan, .num (.num 1)])],
   [("x", [.num (.num 1)])], "t"⟩

/-- A concrete dataset whose train column "x" holds only missing cells. -/
def sAllNaN : St Val := ⟨[("x", [.num .nan])], [("x", [.null])], "t"⟩

/-- A complete ordinal mapping for column "x" of `sW`. -/
def mFull : List (Val × Val) :=
  [(.str ['a'], .num (.num 1)), (.str ['b'], .num (.num 2))]

/-- An ordinal mapping missing the test-side value `"b"` of column "x". -/
def mPartial : List (Val × Val) := [(.str ['a'], .num (.num 1))]

theorem getCol_append_single {α : Type} (df : DF α) (n : String) (vs : List α)
    (h : n ∉ colsL df) : getCol (df ++ [(n, vs)]) n = vs := by
  induction df with
  | nil => simp [getCol]
  | cons d rest ih =>
    simp only [colsL, List.map_cons, List.mem_cons, not_or] at h
    have hd : ¬ d.1 = n := fun he => h.1 he.symm
    simp only [List.cons_append, getCol, if_neg hd]
    exact ih (by simpa [colsL] using h.2)

theorem getCol_setCol_same {α : Type} (df : DF α) (n : String) (vs : List α) :
    getCol (setCol df n vs) n = vs := by
  unfold setCol
  by_cases h : n ∈ colsL df
  · simp only [h, if_true]
    induction df with
    | nil => simp [colsL] at h
    | cons d rest ih =>
      by_cases hd : d.1 = n
      · simp [getCol, hd]
      · simp only [colsL, List.map_cons, List.mem_cons] at h
        have hr : n ∈ colsL rest := h.resolve_left (fun he => hd he.symm)
        simp only [List.map_cons, if_neg hd, getCol, if_neg hd]
        exact ih hr
  · simp only [h, if_false]
    exact getCol_append_single df n vs h

theorem getCol_mapSet_ne {α : Type} (df : DF α) (n m : String) (vs : List α)
    (h : m ≠ n) :
    getCol (df.map (fun c => if c.1 = n then (n, vs) else c)) m = getCol df m := by
  induction df with
  | nil => simp [getCol]
  | cons d rest ih =>
    have hnm : ¬ n = m := fun he => h he.symm
    by_cases hd : d.1 = n
    · have hdm : ¬ d.1 = m := fun he => hnm (hd ▸ he)
      simp only [List.map_cons, if_pos hd, getCol, if_neg hnm, if_neg hdm]
      exact ih
    · simp only [List.map_cons, if_neg hd, getCol]
      by_cases hdm : d.1 = m
      · simp [hdm]
      · simp only [if_neg hdm]
        exact ih

theorem getCol_append_single_ne {α : Type} (df : DF α) (n m : String)
    (vs : List α) (h : m ≠ n) : getCol (df ++ [(n, vs)]) m = getCol df m := by
  induction df with
  | nil => simp [getCol, if_neg (fun he : n = m => h he.symm)]
  | cons d rest ih =>
    simp only [List.cons_append, getCol]
    by_cases hdm : d.1 = m
    · simp [hdm]
    · simp only [if_neg hdm]
      exact ih

theorem getCol_setCol_ne {α : Type} (df : DF α) (n m : String) (vs : List α)
    (h : m ≠ n) : getCol (setCol df n vs) m = getCol df m := by
  unfold setCol
  by_cases hm : n ∈ colsL df
  · simpa only [hm, if_true] using getCol_mapSet_ne df n m vs h
  · simpa only [hm, if_false] using getCol_append_single_ne df n m vs h

theorem colsL_mapSet {α : Type} (df : DF α) (n : String) (vs : List α) :
    colsL (df.map (fun c => if c.1 = n then (n, vs) else c)) = colsL df := by
  unfold colsL
  rw [List.map_map]
  apply List.map_congr_left
  intro c _
  by_cases hc : c.1 = n
  · simp [Function.comp, hc]
  · simp [Function.comp, hc]

theorem mem_colsL_setCol {α : Type} (df : DF α) (n m : String) (vs : List α) :
    m ∈ colsL (setCol df n vs) ↔ m ∈ colsL df ∨ m = n := by
  unfold setCol
  by_cases hm : n ∈ colsL df
  · rw [if_pos hm, colsL_mapSet]
    constructor
    · exact Or.inl
    · rintro (h | rfl)
      · exact h
      · exact hm
  · rw [if_neg hm]
    unfold colsL
    rw [List.map_append]
    simp

theorem mem_colsL_dropCols {α : Type} (df : DF α) (names : List String)
    (m : String) :
    m ∈ colsL (dropCols df names) ↔ m ∈ colsL df ∧ m ∉ names := by
  unfold dropCols colsL
  constructor
  · intro h
    rcases List.mem_map.mp h with ⟨c, hc, rfl⟩
    rcases List.mem_filter.mp hc with ⟨hcd, hck⟩
    exact ⟨List.mem_map.mpr ⟨c, hcd, rfl⟩, by simpa using hck⟩
  · rintro ⟨h1, h2⟩
    rcases List.mem_map.mp h1 with ⟨c, hc, rfl⟩
    exact List.mem_map.mpr ⟨c, List.mem_filter.mpr ⟨hc, by simpa using h2⟩, rfl⟩

theorem getCol_dropCols {α : Type} (df : DF α) (names : List String)
    (m : String) (h : m ∉ names) :
    getCol (dropCols df names) m = getCol df m := by
  induction df with
  | nil => simp [dropCols, getCol]
  | cons d rest ih =>
    by_cases hd : d.1 ∈ names
    · have hdm : ¬ d.1 = m := fun he => h (he ▸ hd)
      simp only [dropCols, List.filter_cons] at ih ⊢
      simp only [decide_eq_true_eq] at *
      rw [if_neg (by simpa using hd)]
      simp only [getCol, if_neg hdm]
      exact ih
    · simp only [dropCols, List.filter_cons, decide_eq_true_eq] at ih ⊢
      rw [if_pos (by simpa using hd)]
      simp only [getCol]
      by_cases hdm : d.1 = m
      · simp [hdm]
      · simp only [if_neg hdm]
        exact ih

theorem colsL_dfTake {α : Type} (n : ℕ) (df : DF α) :
    colsL (dfTake n df) = colsL df := by
  simp [colsL, dfTake, List.map_map, Function.comp]

theorem colsL_dfDrop {α : Type} (n : ℕ) (df : DF α) :
    colsL (dfDrop n df) = colsL df := by
  simp [colsL, dfDrop, List.map_map, Function.comp]

theorem colsL_rowAppend {α : Type} (df1 df2 : DF α) :
    colsL (rowAppend df1 df2) = colsL df1 := by
  simp [colsL, rowAppend, List.map_map, Function.comp]

theorem colsL_mapSnd {α : Type} (f : List α → List α) (df : DF α) :
    colsL (df.map (fun c => (c.1, f c.2))) = colsL df := by
  simp [colsL, List.map_map, Function.comp]

theorem getCol_dfTake {α : Type} (n : ℕ) (df : DF α) (m : String) :
    getCol (dfTake n df) m = (getCol df m).take n := by
  induction df with
  | nil => simp [dfTake, getCol]
  | cons d rest ih =>
    simp only [dfTake, List.map_cons, getCol]
    by_cases hd : d.1 = m
    · simp [hd]
    · simp only [if_neg hd]
      exact ih

theorem getCol_dfDrop {α : Type} (n : ℕ) (df : DF α) (m : String) :
    getCol (dfDrop n df) m = (getCol df m).drop n := by
  induction df with
  | nil => simp [dfDrop, getCol]
  | cons d rest ih =>
    simp only [dfDrop, List.map_cons, getCol]
    by_cases hd : d.1 = m
    · simp [hd]
    · simp only [if_neg hd]
      exact ih

theorem getCol_rowAppend {α : Type} (df1 df2 : DF α) (m : String)
    (h : m ∈ colsL df1) :
    getCol (rowAppend df1 df2) m = getCol df1 m ++ getCol df2 m := by
  induction df1 with
  | nil => simp [colsL] at h
  | cons d rest ih =>
    simp only [rowAppend, List.map_cons, getCol] at ih ⊢
    by_cases hd : d.1 = m
    · simp [hd]
    · simp only [if_neg hd]
      simp only [colsL, List.map_cons, List.mem_cons] at h
      exact ih (h.resolve_left (fun he => hd he.symm))

theorem getCol_mapSnd {α : Type} (f : List α → List α) (df : DF α) (m : String)
    (h : m ∈ colsL df) :
    getCol (df.map (fun c => (c.1, f c.2))) m = f (getCol df m) := by
  induction df with
  | nil => simp [colsL] at h
  | cons d rest ih =>
    simp only [List.map_cons, getCol]
    by_cases hd : d.1 = m
    · simp [hd]
    · simp only [if_neg hd]
      simp only [colsL, List.map_cons, List.mem_cons] at h
      exact ih (h.resolve_left (fun he => hd he.symm))

theorem Inv_setCol_both {α : Type} {s : St α} (hs : Inv s) (n : String)
    (hn : n ≠ s.target) (vs ws : List α) :
    Inv { s with train := setCol s.train n vs, test := setCol s.test n ws } := by
  obtain ⟨h1, h2, h3, h4⟩ := hs
  refine ⟨?_, ?_, ?_, ?_⟩
  · exact (mem_colsL_setCol s.train n s.target vs).mpr (Or.inl h1)
  · intro hmem
    rcases (mem_colsL_setCol s.test n s.target ws).mp hmem with h | h
    · exact h2 h
    · exact hn h.symm
  · intro c hc hct
    rcases (mem_colsL_setCol s.train n c vs).mp hc with h | rfl
    · exact (mem_colsL_setCol s.test n c ws).mpr (Or.inl (h3 c h hct))
    · exact (mem_colsL_setCol s.test c c ws).mpr (Or.inr rfl)
  · intro c hc
    rcases (mem_colsL_setCol s.test n c ws).mp hc with h | rfl
    · exact (mem_colsL_setCol s.train n c vs).mpr (Or.inl (h4 c h))
    · exact (mem_colsL_setCol s.train c c vs).mpr (Or.inr rfl)

theorem Inv_dropCols_both {α : Type} {s : St α} (hs : Inv s)
    (names : List String) (hn : s.target ∉ names) :
    Inv { s with
            train := dropCols s.train names,
            test := dropCols s.test names } := by
  obtain ⟨h1, h2, h3, h4⟩ := hs
  refine ⟨?_, ?_, ?_, ?_⟩
  · exact (mem_colsL_dropCols s.train names s.target).mpr ⟨h1, hn⟩
  · intro hmem
    exact h2 ((mem_colsL_dropCols s.test names s.target).mp hmem).1
  · intro c hc hct
    rcases (mem_colsL_dropCols s.train names c).mp hc with ⟨hcm, hck⟩
    exact (mem_colsL_dropCols s.test names c).mpr ⟨h3 c hcm hct, hck⟩
  · intro c hc
    rcases (mem_colsL_dropCols s.test names c).mp hc with ⟨hcm, hck⟩
    exact (mem_colsL_dropCols s.train names c).mpr ⟨h4 c hcm, hck⟩

theorem Inv_split {α : Type} (s : St α) (df : DF α) (n : ℕ)
    (h : s.target ∈ colsL df) :
    Inv { s with
            train := dfTake n df,
            test := dropCols (dfDrop n df) [s.target] } := by
  refine ⟨?_, ?_, ?_, ?_⟩
  · rw [colsL_dfTake]
    exact h
  · intro hc
    rcases (mem_colsL_dropCols (dfDrop n df) [s.target] s.target).mp hc
      with ⟨_, hne⟩
    exact hne (by simp)
  · intro c hc hct
    rw [colsL_dfTake] at hc
    refine (mem_colsL_dropCols (dfDrop n df) [s.target] c).mpr
      ⟨by rw [colsL_dfDrop]; exact hc, by simpa using hct⟩
  · intro c hc
    rcases (mem_colsL_dropCols (dfDrop n df) [s.target] c).mp hc with ⟨hc', _⟩
    rw [colsL_dfDrop] at hc'
    rw [colsL_dfTake]
    exact hc'

theorem mem_colsL_foldl_setCol {α : Type} (g : DF α → String → List α)
    (features : List String) (df : DF α) (c : String) (h : c ∈ colsL df) :
    c ∈ colsL (features.foldl (fun d f => setCol d f (g d f)) df) := by
  induction features generalizing df with
  | nil => exact h
  | cons f rest ih =>
    exact ih _ ((mem_colsL_setCol df f c (g df f)).mpr (Or.inl h))

theorem getCol_foldl_setCol_notmem {α : Type} (g : DF α → String → List α)
    (features : List String) (df : DF α) (m : String) (h : m ∉ features) :
    getCol (features.foldl (fun d f => setCol d f (g d f)) df) m
      = getCol df m := by
  induction features generalizing df with
  | nil => rfl
  | cons f rest ih =>
    simp only [List.foldl_cons]
    rw [ih _ (fun hm => h (List.mem_cons_of_mem _ hm)),
      getCol_setCol_ne _ _ _ _ (fun he => h (by rw [he]; exact List.mem_cons_self _ _))]

theorem getCol_labels_foldl (features : List String) (df : DF Val) (f : String)
    (hnd : features.Nodup) (hf : f ∈ features) :
    getCol (features.foldl
      (fun d g => setCol d g (labelEncode (getCol d g))) df) f
      = labelEncode (getCol df f) := by
  induction features generalizing df with
  | nil => cases hf
  | cons hd rest ih =>
    simp only [List.foldl_cons]
    rcases List.mem_cons.mp hf with rfl | hf'
    · rw [getCol_foldl_setCol_notmem _ _ _ _ (List.nodup_cons.mp hnd).1,
        getCol_setCol_same]
    · have hne : f ≠ hd := fun he => (List.nodup_cons.mp hnd).1 (he ▸ hf')
      rw [ih _ (List.nodup_cons.mp hnd).2 hf',
        getCol_setCol_ne _ _ _ _ hne]

theorem pySplit_ne_nil (sep : Char) (s : List Char) : pySplit sep s ≠ [] := by
  cases s with
  | nil => simp [pySplit]
  | cons c rest =>
    simp only [pySplit]
    by_cases hc : c = sep
    · simp [hc]
    · simp only [if_neg hc]
      cases h : pySplit sep rest <;> simp

theorem pySplit_length (sep : Char) (s : List Char) :
    (pySplit sep s).length = s.count sep + 1 := by
  induction s with
  | nil => simp [pySplit]
  | cons c rest ih =>
    simp only [pySplit, List.count_cons]
    by_cases hc : c = sep
    · simp [hc, ih]
    · simp only [if_neg hc]
      cases h : pySplit sep rest with
      | nil => exact absurd h (pySplit_ne_nil sep rest)
      | cons hh tt =>
        have : tt.length + 1 = rest.count sep + 1 := by
          have := ih
          rw [h] at this
          simpa using this
        have hcs : ¬ (c == sep) = true := by simpa using hc
        simp [hcs, this]

theorem roundHalfEvenZ_intCast (k : ℤ) : roundHalfEvenZ (k : ℚ) = k := by
  unfold roundHalfEvenZ
  rw [Int.floor_intCast, sub_self]
  norm_num

theorem roundDec_idem (p : ℕ) (q : ℚ) : roundDec p (roundDec p q) = roundDec p q := by
  have hp : (10 : ℚ) ^ p ≠ 0 := by positivity
  unfold roundDec
  rw [div_mul_cancel₀ _ hp, roundHalfEvenZ_intCast]

theorem roundPF_idem (p : ℕ) (x : PFloat) : roundPF p (roundPF p x) = roundPF p x := by
  cases x <;> simp [roundPF, roundDec_idem]

theorem roundVal_idem (p : ℕ) (v : Val) : roundVal p (roundVal p v) = roundVal p v := by
  cases v <;> simp [roundVal, roundPF_idem]

theorem mapCol_eq_some {m : List (Val × Val)} {vs : List Val}
    (h : ∀ v ∈ vs, (dictGet m v).isSome) :
    mapCol m vs = some (vs.map (fun v => (dictGet m v).getD .null)) := by
  induction vs with
  | nil => rfl
  | cons v rest ih =>
    have hv := h v (List.mem_cons_self _ _)
    rcases ho : dictGet m v with _ | w
    · rw [ho] at hv
      simp at hv
    · rw [List.map_cons]
      simp only [mapCol, ho,
        ih (fun u hu => h u (List.mem_cons_of_mem _ hu))]
      simp

theorem mapCol_eq_none {m : List (Val × Val)} {vs : List Val}
    (h : ∃ v ∈ vs, dictGet m v = none) : mapCol m vs = none := by
  induction vs with
  | nil => simp at h
  | cons v rest ih =>
    rcases h with ⟨u, hu, hnone⟩
    rcases List.mem_cons.mp hu with rfl | hu'
    · simp [mapCol, hnone]
    · simp only [mapCol, ih ⟨u, hu', hnone⟩]
      cases dictGet m v <;> rfl

/-- C2: at the failing input where `a = 0` and `b = 0` in the same row,
`divide` stores NaN — an undefined value — in the new column of both
tables: `0 / 0` produces NaN, and the source's
`replace([np.inf, -np.inf], 0)` replaces only the two infinities, never
NaN, contradicting the claim (and the method's own docstring "Replace
division-by-zero with zero values"). -/
theorem C2_divide_zero_by_zero_leaves_nan :
    getCol (Feature.divide "r" "x" "y" sZZ).1.train "r" = [Val.num .nan]
    ∧ getCol (Feature.divide "r" "x" "y" sZZ).1.test "r" = [Val.num .nan]
    ∧ Val.num .nan ≠ Val.num (.num 0) :=
  ⟨by decide, by decide, by decide⟩

/-- C10: a percentile argument equal to `0` is treated by `outliers_fix`
exactly like an absent argument (Python truthiness of `if upper:` /
`if lower:`): the corresponding branch is skipped entirely — no percentile
computed, neither table modified by that branch, nothing reported. -/
theorem C10_outliers_fix_zero_is_skipped (a : String) (s : St ℚ) :
    (∀ lower, Feature.outliers_fix a lower (some 0) s
      = Feature.outliers_fix a lower none s)
    ∧ Feature.outliers_fix a (some 0) none s = ⟨s, 0, []⟩
    ∧ (∀ upper, Feature.outliers_fix a (some 0) upper s
      = Feature.outliers_fix a none upper s) := by
  refine ⟨?_, ?_, ?_⟩
  · intro lower
    cases lower <;> simp [Feature.outliers_fix]
  · simp [Feature.outliers_fix]
  · intro upper
    cases upper <;> simp [Feature.outliers_fix]

/-- C9: [counterexample] `concat` is structure-changing — it adds the new
column "fn" to both tables — yet it invokes the schema-refresh hook
`data_n` zero times, refuting the claim that every structure-changing
operation invokes `data_n` as part of completing the call. -/
theorem C9_concat_skips_data_n :
    "fn" ∉ colsL sW.train
    ∧ "fn" ∈ colsL (Feature.concat "fn" "x" [' '] "y" sW).1.train
    ∧ "fn" ∈ colsL (Feature.concat "fn" "x" [' '] "y" sW).1.test
    ∧ (Feature.concat "fn" "x" [' '] "y" sW).2 = 0 := by
  refine ⟨by decide, by decide, by decide, by decide⟩

/-- C9 (amended): every structure-changing operation except `concat` and
`regex_extract` invokes the schema-refresh hook `data_n` exactly once per
call; `concat` and `regex_extract` (even when writing a new column) never
invoke it. -/
theorem C9_data_n_calls (s : St Val) :
    (∀ features, (Feature.drop features s).2 = 1)
    ∧ (Feature.impute s).2 = 1
    ∧ (∀ a, (Feature.density a s).2 = 1)
    ∧ (∀ new a b, (Feature.sum new a b s).2 = 1)
    ∧ (∀ new a b, (Feature.diff new a b s).2 = 1)
    ∧ (∀ new a b, (Feature.product new a b s).2 = 1)
    ∧ (∀ new a b, (Feature.divide new a b s).2 = 1)
    ∧ (∀ new a p, (Feature.round new a p s).2 = 1)
    ∧ (∀ new a, (Feature.list_len new a s).2 = 1)
    ∧ (∀ new a, (Feature.word_count new a s).2 = 1)
    ∧ (∀ features, (Feature.labels features s).2 = 1)
    ∧ (∀ new a sep b, (Feature.concat new a sep b s).2 = 0)
    ∧ (∀ a search new, (Feature.regex_extract a search new s).2 = 0) :=
  ⟨fun fs1 => rfl, rfl, fun a1 => rfl, fun n1 a1 b1 => rfl,
   fun n2 a2 b2 => rfl, fun n3 a3 b3 => rfl, fun n4 a4 b4 => rfl,
   fun n5 a5 p5 => rfl, fun n6 a6 => rfl, fun n7 a7 => rfl,
   fun fs2 => rfl, fun n8 a8 sp8 b8 => rfl, fun a9 se9 n9 => rfl⟩

/-- C7: [counterexample] on the text "a  b" — two words separated by a run
of two spaces — `word_count` stores 3, while the number of
whitespace-separated tokens is 2: runs of multiple spaces do change the
stored count, because the source splits on the single-space separator
`" "` and counts the empty chunks. -/
theorem C7_word_count_double_space :
    getCol (Feature.word_count "n" "txt" sTxt).1.train "n"
      = [Val.num (.num 3)]
    ∧ whitespaceTokenCount ['a', ' ', ' ', 'b'] = 2
    ∧ Val.num (.num 3) ≠ Val.num (.num 2) :=
  ⟨by decide, by decide, by decide⟩

/-- C7 (amended): for every call `word_count(new, a)`, each row of the new
column in both tables holds, for a text cell, one plus the number of space
(`' '`) characters of that cell — the length of Python's `split(" ")`
chunk list, which keeps empty chunks — so each extra space in a run adds
one and non-space whitespace never separates tokens. -/
theorem C7_word_count_space_chunks (new a : String) (s : St Val) :
    getCol (Feature.word_count new a s).1.train new
      = (getCol s.train a).map wordCountVal
    ∧ getCol (Feature.word_count new a s).1.test new
      = (getCol s.test a).map wordCountVal
    ∧ (∀ t : List Char,
        wordCountVal (Val.str t)
          = Val.num (.num ((t.count ' ' + 1 : ℕ) : ℚ))) := by
  refine ⟨?_, ?_, ?_⟩
  · exact getCol_setCol_same s.train new ((getCol s.train a).map wordCountVal)
  · exact getCol_setCol_same s.test new ((getCol s.test a).map wordCountVal)
  · intro t
    simp only [wordCountVal, pySplit_length]

/-- C5: rounding to precision `p` is idempotent on the produced column:
every value stored by `round(new, a, p)` in the new column of either table
is unchanged by rounding it again to `p` decimal places. -/
theorem C5_round_idempotent (new a : String) (p : ℕ) (s : St Val) :
    (∀ v ∈ getCol (Feature.round new a p s).1.train new, roundVal p v = v)
    ∧ (∀ v ∈ getCol (Feature.round new a p s).1.test new, roundVal p v = v) := by
  constructor
  · intro v hv
    have hcol : getCol (Feature.round new a p s).1.train new
        = (getCol s.train a).map (roundVal p) :=
      getCol_setCol_same s.train new ((getCol s.train a).map (roundVal p))
    rw [hcol] at hv
    rcases List.mem_map.mp hv with ⟨u, _, rfl⟩
    exact roundVal_idem p u
  · intro v hv
    have hcol : getCol (Feature.round new a p s).1.test new
        = (getCol s.test a).map (roundVal p) :=
      getCol_setCol_same s.test new ((getCol s.test a).map (roundVal p))
    rw [hcol] at hv
    rcases List.mem_map.mp hv with ⟨u, _, rfl⟩
    exact roundVal_idem p u

/-- Witness for C5: the theorem applied at a concrete call
(`round("r", "x", 2)` on `sZZ`), with the membership hypothesis discharged
on the concrete produced column. -/
theorem C5_round_idempotent_witness :
    roundVal 2 (roundVal 2 (Val.num (.num 0))) = roundVal 2 (Val.num (.num 0)) := by
  refine (C5_round_idempotent "r" "x" 2 sZZ).1 (roundVal 2 (Val.num (.num 0))) ?_
  have hcol : getCol (Feature.round "r" "x" 2 sZZ).1.train "r"
      = [roundVal 2 (Val.num (.num 0))] :=
    getCol_setCol_same sZZ.train "r" ((getCol sZZ.train "x").map (roundVal 2))
  rw [hcol]
  exact List.mem_singleton.mpr rfl

/-- C4: [counterexample] on a train column `[NaN, NaN, 1]` the claim
fails: the value NaN of the first two train rows occurs twice in train's
column, yet those rows receive 1 — `value_counts()` drops missing values,
so a missing cell falls through the dictionary to `vals.min()`, which is
computed over the present values only — where the claim says every train
row receives its value's frequency count (here 2) within train's column.
-/
theorem C4_missing_values_counterexample :
    getCol (Feature.density "x" sNaN).1.train ("x" ++ "_density")
      = [Val.num (.num 1), Val.num (.num 1), Val.num (.num 1)]
    ∧ (getCol sNaN.train "x").count (Val.num .nan) = 2
    ∧ Val.num (.num 1) ≠ Val.num (.num 2) :=
  ⟨by decide, by decide, by decide⟩

/-- C4 (amended): `density(a)` adds column `a + "_density"` to both
tables, each row mapped through one lookup function derived from train's
column; frequencies are taken over the present (non-missing) values of
train's column, since `value_counts()` drops missing cells: a row whose
value is present-valued and occurs in train receives its frequency among
train's present values; every other row — value unseen in train, or a
missing cell — receives the minimum of those frequencies, which is a
least observed frequency and is attained, when train's column has any
present value, and NaN when it has none. -/
theorem C4_density_missing_dropped (a : String) (s : St Val) :
    (a ++ "_density") ∈ colsL (Feature.density a s).1.train
    ∧ (a ++ "_density") ∈ colsL (Feature.density a s).1.test
    ∧ getCol (Feature.density a s).1.train (a ++ "_density")
        = (getCol s.train a).map (densityGet (getCol s.train a))
    ∧ getCol (Feature.density a s).1.test (a ++ "_density")
        = (getCol s.test a).map (densityGet (getCol s.train a))
    ∧ (∀ x ∈ (getCol s.train a).filter (fun v => !isMissing v),
        densityGet (getCol s.train a) x
          = Val.num (.num
              ((((getCol s.train a).filter (fun v => !isMissing v)).count x : ℕ) : ℚ)))
    ∧ ((getCol s.train a).filter (fun v => !isMissing v) ≠ [] →
        ∃ mn : ℕ,
          (((((getCol s.train a).filter (fun v => !isMissing v)).dedup).map
            (fun v => ((getCol s.train a).filter (fun v => !isMissing v)).count v)).min?
              = some mn)
          ∧ (∀ x, x ∉ (getCol s.train a).filter (fun v => !isMissing v) →
              densityGet (getCol s.train a) x = Val.num (.num (mn : ℚ)))
          ∧ (∀ v ∈ (getCol s.train a).filter (fun v => !isMissing v),
              mn ≤ ((getCol s.train a).filter (fun v => !isMissing v)).count v)
          ∧ ∃ v ∈ (getCol s.train a).filter (fun v => !isMissing v),
              ((getCol s.train a).filter (fun v => !isMissing v)).count v = mn)
    ∧ ((getCol s.train a).filter (fun v => !isMissing v) = [] →
        ∀ x, x ∉ (getCol s.train a).filter (fun v => !isMissing v) →
          densityGet (getCol s.train a) x = Val.num .nan) := by
  refine ⟨?_, ?_, ?_, ?_, ?_, ?_, ?_⟩
  · exact (mem_colsL_setCol s.train (a ++ "_density") (a ++ "_density")
      _).mpr (Or.inr rfl)
  · exact (mem_colsL_setCol s.test (a ++ "_density") (a ++ "_density")
      _).mpr (Or.inr rfl)
  · exact getCol_setCol_same s.train (a ++ "_density") _
  · exact getCol_setCol_same s.test (a ++ "_density") _
  · intro x hx
    unfold densityGet
    rw [if_pos hx]
  · intro hne
    obtain ⟨mn, hmn⟩ : ∃ mn, ((((getCol s.train a).filter
        (fun v => !isMissing v)).dedup).map
        (fun v => ((getCol s.train a).filter (fun v => !isMissing v)).count v)).min?
          = some mn := by
      cases hd : (((getCol s.train a).filter (fun v => !isMissing v)).dedup).map
          (fun v => ((getCol s.train a).filter (fun v => !isMissing v)).count v) with
      | nil =>
        exfalso
        have hdd : ((getCol s.train a).filter (fun v => !isMissing v)).dedup
            = [] := by
          cases hdd : ((getCol s.train a).filter (fun v => !isMissing v)).dedup with
          | nil => rfl
          | cons y ys =>
            rw [hdd] at hd
            simp at hd
        exact hne ((List.dedup_eq_nil _).mp hdd)
      | cons y ys =>
        exact ⟨_, List.min?_cons⟩
    obtain ⟨hmem, hle⟩ :=
      (List.min?_eq_some_iff (fun a => Nat.le_refl a)
        (fun a b => min_choice a b) (fun a b c => Nat.le_min)).mp hmn
    refine ⟨mn, hmn, ?_, ?_, ?_⟩
    · intro x hx
      unfold densityGet
      rw [if_neg hx, hmn]
    · intro v hv
      exact hle _ (List.mem_map.mpr ⟨v, List.mem_dedup.mpr hv, rfl⟩)
    · rcases List.mem_map.mp hmem with ⟨v, hvd, hcv⟩
      exact ⟨v, List.mem_dedup.mp hvd, hcv⟩
  · intro hempty x hx
    unfold densityGet
    rw [if_neg hx, hempty]
    rfl

/-- Witness for C4: the theorem applied at concrete calls — on `sW`
(train column "y" has a present value, discharging the nonemptiness
hypothesis), on `sAllNaN` (train column "x" is all missing, discharging
the emptiness hypothesis), and the present-value conjunct instantiated at
the concrete member. -/
theorem C4_density_missing_dropped_witness :
    (∃ mn : ℕ,
      (((((getCol sW.train "y").filter (fun v => !isMissing v)).dedup).map
        (fun v => ((getCol sW.train "y").filter (fun v => !isMissing v)).count v)).min?
          = some mn)
      ∧ (∀ x, x ∉ (getCol sW.train "y").filter (fun v => !isMissing v) →
          densityGet (getCol sW.train "y") x = Val.num (.num (mn : ℚ)))
      ∧ (∀ v ∈ (getCol sW.train "y").filter (fun v => !isMissing v),
          mn ≤ ((getCol sW.train "y").filter (fun v => !isMissing v)).count v)
      ∧ ∃ v ∈ (getCol sW.train "y").filter (fun v => !isMissing v),
          ((getCol sW.train "y").filter (fun v => !isMissing v)).count v = mn)
    ∧ (∀ x, x ∉ (getCol sAllNaN.train "x").filter (fun v => !isMissing v) →
        densityGet (getCol sAllNaN.train "x") x = Val.num .nan)
    ∧ densityGet (getCol sW.train "y") (Val.num (.num 2))
        = Val.num (.num
            ((((getCol sW.train "y").filter
              (fun v => !isMissing v)).count (Val.num (.num 2)) : ℕ) : ℚ)) :=
  ⟨(C4_density_missing_dropped "y" sW).2.2.2.2.2.1 (by decide),
   (C4_density_missing_dropped "x" sAllNaN).2.2.2.2.2.2 (by decide),
   (C4_density_missing_dropped "y" sW).2.2.2.2.1 (Val.num (.num 2)) (by decide)⟩

/-- C8: `ordinal_to_numeric(col, mapping)` replaces every value of the
column by its mapping entry in both tables when every value (train and
test) has an entry; when some value in either table has no entry, the call
fails with a `KeyError` (the `Except.error` outcome, carrying the state at
the point of failure) instead of completing. -/
theorem C8_ordinal_to_numeric (a : String) (m : List (Val × Val)) (s : St Val) :
    ((∀ v ∈ getCol s.train a, (dictGet m v).isSome) →
     (∀ v ∈ getCol s.test a, (dictGet m v).isSome) →
      Feature.ordinal_to_numeric a m s = Except.ok
        ({ s with
            train := setCol s.train a
              ((getCol s.train a).map (fun v => (dictGet m v).getD .null)),
            test := setCol s.test a
              ((getCol s.test a).map (fun v => (dictGet m v).getD .null)) }, 1))
    ∧ ((∃ v ∈ getCol s.train a ++ getCol s.test a, dictGet m v = none) →
        ∀ r, Feature.ordinal_to_numeric a m s ≠ Except.ok r) := by
  constructor
  · intro h1 h2
    unfold Feature.ordinal_to_numeric
    rw [mapCol_eq_some h1]
    dsimp only
    rw [mapCol_eq_some h2]
  · rintro ⟨v, hv, hnone⟩ r
    rcases List.mem_append.mp hv with hvt | hvs
    · unfold Feature.ordinal_to_numeric
      rw [mapCol_eq_none ⟨v, hvt, hnone⟩]
      simp
    · cases ht : mapCol m (getCol s.train a) with
      | none =>
        unfold Feature.ordinal_to_numeric
        rw [ht]
        simp
      | some tv =>
        unfold Feature.ordinal_to_numeric
        rw [ht]
        dsimp only
        rw [mapCol_eq_none ⟨v, hvs, hnone⟩]
        simp

/-- Witness for C8: both branches at concrete inputs — the complete
mapping `mFull` maps every value of column "x" of `sW` and succeeds; the
mapping `mPartial` misses the test value "b" and fails. -/
theorem C8_ordinal_to_numeric_witness :
    Feature.ordinal_to_numeric "x" mFull sW = Except.ok
      ({ sW with
          train := setCol sW.train "x"
            ((getCol sW.train "x").map (fun v => (dictGet mFull v).getD .null)),
          test := setCol sW.test "x"
            ((getCol sW.test "x").map (fun v => (dictGet mFull v).getD .null)) }, 1)
    ∧ (∀ r, Feature.ordinal_to_numeric "x" mPartial sW ≠ Except.ok r) := by
  constructor
  · exact (C8_ordinal_to_numeric "x" mFull sW).1 (by decide) (by decide)
  · exact (C8_ordinal_to_numeric "x" mPartial sW).2 (by decide)

/-- C1: every operation that adds or removes a column keeps the train and
test column sets identical except for the target column, which only train
retains — under the schema invariant holding before the call and the
natural side conditions that the created or dropped names do not collide
with the target column.  `labels` and `impute` temporarily attach a
placeholder target column to test before recombining and drop it again at
the end, so they need no side condition at all. -/
theorem C1_schema_sync {s : St Val} (hs : Inv s) :
    (∀ features, s.target ∉ features → Inv (Feature.drop features s).1)
    ∧ (∀ a, a ++ "_density" ≠ s.target → Inv (Feature.density a s).1)
    ∧ (∀ new a b, new ≠ s.target → Inv (Feature.sum new a b s).1)
    ∧ (∀ new a b, new ≠ s.target → Inv (Feature.diff new a b s).1)
    ∧ (∀ new a b, new ≠ s.target → Inv (Feature.product new a b s).1)
    ∧ (∀ new a b, new ≠ s.target → Inv (Feature.divide new a b s).1)
    ∧ (∀ new a p, new ≠ s.target → Inv (Feature.round new a p s).1)
    ∧ (∀ new a sep b, new ≠ s.target → Inv (Feature.concat new a sep b s).1)
    ∧ (∀ new a, new ≠ s.target → Inv (Feature.list_len new a s).1)
    ∧ (∀ new a, new ≠ s.target → Inv (Feature.word_count new a s).1)
    ∧ (∀ a search new, new ≠ s.target →
        Inv (Feature.regex_extract a search (some new) s).1)
    ∧ (∀ features, Inv (Feature.labels features s).1)
    ∧ Inv (Feature.impute s).1 := by
  refine ⟨?_, ?_, ?_, ?_, ?_, ?_, ?_, ?_, ?_, ?_, ?_, ?_, ?_⟩
  · intro features hf
    exact Inv_dropCols_both hs features hf
  · intro a ha
    exact Inv_setCol_both hs (a ++ "_density") ha _ _
  · intro new a b hn
    exact Inv_setCol_both hs new hn _ _
  · intro new a b hn
    exact Inv_setCol_both hs new hn _ _
  · intro new a b hn
    exact Inv_setCol_both hs new hn _ _
  · intro new a b hn
    exact Inv_setCol_both (Inv_setCol_both hs new hn _ _) new hn _ _
  · intro new a p hn
    exact Inv_setCol_both hs new hn _ _
  · intro new a sep b hn
    exact Inv_setCol_both hs new hn _ _
  · intro new a hn
    exact Inv_setCol_both hs new hn _ _
  · intro new a hn
    exact Inv_setCol_both hs new hn _ _
  · intro a search new hn
    exact Inv_setCol_both hs new hn _ _
  · intro features
    refine Inv_split s _ (nrows s.train) ?_
    refine mem_colsL_foldl_setCol _ features _ s.target ?_
    rw [colsL_rowAppend]
    exact hs.1
  · refine Inv_split s _ (nrows s.train) ?_
    rw [colsL_mapSnd, colsL_rowAppend]
    exact hs.1

/-- Witness for C1: the theorem applied at the concrete dataset `sW`
(whose invariant holds by computation) for a representative operation of
each proof shape: a drop, a new-column creation, `divide` (two chained
assignments), `labels` and `impute` (combine/split), discharging every
hypothesis concretely. -/
theorem C1_schema_sync_witness :
    Inv (Feature.drop ["x"] sW).1
    ∧ Inv (Feature.sum "z" "y" "y" sW).1
    ∧ Inv (Feature.divide "z" "y" "y" sW).1
    ∧ Inv (Feature.labels ["x"] sW).1
    ∧ Inv (Feature.impute sW).1 :=
  ⟨(C1_schema_sync (by decide)).1 ["x"] (by decide),
   (C1_schema_sync (by decide)).2.2.1 "z" "y" "y" (by decide),
   (C1_schema_sync (by decide)).2.2.2.2.2.1 "z" "y" "y" (by decide),
   (C1_schema_sync (by decide)).2.2.2.2.2.2.2.2.2.2.2.1 ["x"],
   (C1_schema_sync (by decide)).2.2.2.2.2.2.2.2.2.2.2.2⟩

/-- C3: for every call `labels(features)` and every column named in
`features`, the final train and test columns are obtained by applying one
code function — derived from the combined train+test value list of that
column — to the original values, so equal raw values anywhere in the two
tables receive the same integer code; and on values occurring in the
combined list the code function is injective, so distinct raw values of
the column receive distinct codes. -/
theorem C3_labels_consistent_injective (features : List String) (f : String)
    (s : St Val) (hnd : features.Nodup) (hf : f ∈ features)
    (hft : f ≠ s.target) (hmem : f ∈ colsL s.train)
    (hlen : (getCol s.train f).length = nrows s.train) :
    getCol (Feature.labels features s).1.train f
      = (getCol s.train f).map
          (labelCode (getCol s.train f ++ getCol s.test f))
    ∧ getCol (Feature.labels features s).1.test f
      = (getCol s.test f).map
          (labelCode (getCol s.train f ++ getCol s.test f))
    ∧ (∀ u ∈ getCol s.train f ++ getCol s.test f,
        ∀ v ∈ getCol s.train f ++ getCol s.test f,
          (labelCode (getCol s.train f ++ getCol s.test f) u
            = labelCode (getCol s.train f ++ getCol s.test f) v ↔ u = v)) := by
  have htest1 : getCol (setCol s.test s.target
      (List.replicate (nrows s.test) (Val.num (.num (-1))))) f
      = getCol s.test f :=
    getCol_setCol_ne s.test s.target f _ hft
  have hfold : getCol (List.foldl (fun d g => setCol d g
        (labelEncode (getCol d g))) (rowAppend s.train (setCol s.test s.target
        (List.replicate (nrows s.test) (Val.num (.num (-1)))))) features) f
      = labelEncode (getCol s.train f ++ getCol s.test f) := by
    rw [getCol_labels_foldl features _ f hnd hf,
      getCol_rowAppend _ _ f hmem, htest1]
  refine ⟨?_, ?_, ?_⟩
  · have h1 : getCol (Feature.labels features s).1.train f
        = (getCol (List.foldl (fun d g => setCol d g
            (labelEncode (getCol d g))) (rowAppend s.train (setCol s.test
            s.target (List.replicate (nrows s.test) (Val.num (.num (-1))))))
            features) f).take (nrows s.train) :=
      getCol_dfTake (nrows s.train) _ f
    rw [h1, hfold]
    show ((getCol s.train f ++ getCol s.test f).map
        (labelCode (getCol s.train f ++ getCol s.test f))).take (nrows s.train)
      = (getCol s.train f).map (labelCode (getCol s.train f ++ getCol s.test f))
    rw [List.map_append, ← hlen, ← List.length_map (getCol s.train f)
      (labelCode (getCol s.train f ++ getCol s.test f)), List.take_left]
  · have h2 : getCol (Feature.labels features s).1.test f
        = getCol (dfDrop (nrows s.train) (List.foldl (fun d g => setCol d g
            (labelEncode (getCol d g))) (rowAppend s.train (setCol s.test
            s.target (List.replicate (nrows s.test) (Val.num (.num (-1))))))
            features)) f :=
      getCol_dropCols _ [s.target] f (by simpa using hft)
    rw [h2, getCol_dfDrop, hfold]
    show ((getCol s.train f ++ getCol s.test f).map
        (labelCode (getCol s.train f ++ getCol s.test f))).drop (nrows s.train)
      = (getCol s.test f).map (labelCode (getCol s.train f ++ getCol s.test f))
    rw [List.map_append, ← hlen, ← List.length_map (getCol s.train f)
      (labelCode (getCol s.train f ++ getCol s.test f)), List.drop_left]
  · intro u hu v hv
    simp only [labelCode, Val.num.injEq, PFloat.num.injEq, Nat.cast_inj]
    exact List.indexOf_inj (List.mem_dedup.mpr hu) (List.mem_dedup.mpr hv)

/-- Witness for C3: the theorem applied at the concrete call
`labels(["x"])` on `sW`, all hypotheses discharged by computation. -/
theorem C3_labels_witness :
    getCol (Feature.labels ["x"] sW).1.train "x"
      = (getCol sW.train "x").map
          (labelCode (getCol sW.train "x" ++ getCol sW.test "x"))
    ∧ getCol (Feature.labels ["x"] sW).1.test "x"
      = (getCol sW.test "x").map
          (labelCode (getCol sW.train "x" ++ getCol sW.test "x"))
    ∧ (∀ u ∈ getCol sW.train "x" ++ getCol sW.test "x",
        ∀ v ∈ getCol sW.train "x" ++ getCol sW.test "x",
          (labelCode (getCol sW.train "x" ++ getCol sW.test "x") u
            = labelCode (getCol sW.train "x" ++ getCol sW.test "x") v ↔ u = v)) :=
  C3_labels_consistent_injective ["x"] "x" sW (by decide) (by decide)
    (by decide) (by decide) (by decide)

theorem percentile_sQ_zero : percentile (getCol sQ.train "x") 0 = 1 := by
  have hcol : getCol sQ.train "x" = [5, 1, 3] := by decide
  have hsort : List.insertionSort (fun x1 x2 => x1 ≤ x2) ([5, 1, 3] : List ℚ)
      = [1, 3, 5] := by decide
  rw [hcol]
  unfold percentile
  rw [hsort]
  norm_num

/-- C6: [counterexample] with the non-null percentile argument `upper = 0`
the claim fails: on train column [5, 1, 3] the 0th percentile is 1 and the
value 5 lies strictly above it, yet the call leaves both tables unchanged,
reports nothing and refreshes nothing, because `if upper:` is false for 0.
-/
theorem C6_zero_upper_not_clamped :
    (Feature.outliers_fix "x" none (some 0) sQ).st = sQ
    ∧ (Feature.outliers_fix "x" none (some 0) sQ).reports = []
    ∧ (Feature.outliers_fix "x" none (some 0) sQ).dataN = 0
    ∧ percentile (getCol sQ.train "x") 0 = 1
    ∧ (5 : ℚ) ∈ getCol (Feature.outliers_fix "x" none (some 0) sQ).st.train "x"
    ∧ (1 : ℚ) < 5 :=
  ⟨by decide, by decide, by decide, percentile_sQ_zero, by decide, by decide⟩

/-- C6 (amended): for `outliers_fix(col, lower, upper)` with a present and
non-zero upper (respectively lower) percentile argument (a zero argument
is falsy in Python and skips the branch): the percentile threshold is
computed over train only; every train value strictly above (below) it is
replaced by the threshold; the count of rows changed is reported together
with its percentage of the train rows; the test table is never modified by
any call; and a call carrying both arguments behaves as the upper-branch
call followed by the lower-branch call on its result. -/
theorem C6_outliers_fix_clamps (a : String) (s : St ℚ) :
    (∀ lower upper, (Feature.outliers_fix a lower upper s).st.test = s.test)
    ∧ (∀ u, u ≠ 0 → Feature.outliers_fix a none (some u) s =
        ⟨{ s with train := setCol s.train a ((getCol s.train a).map
            (fun x => if percentile (getCol s.train a) u < x
                      then percentile (getCol s.train a) u else x)) },
          1,
          [(((getCol s.train a).filter
              (fun x => decide (percentile (getCol s.train a) u < x))).length,
            ((((getCol s.train a).filter
              (fun x => decide (percentile (getCol s.train a) u < x))).length : ℕ) : ℚ)
              / ((nrows (setCol s.train a ((getCol s.train a).map
                  (fun x => if percentile (getCol s.train a) u < x
                            then percentile (getCol s.train a) u else x))) : ℕ) : ℚ)
              * 100)]⟩)
    ∧ (∀ l, l ≠ 0 → Feature.outliers_fix a (some l) none s =
        ⟨{ s with train := setCol s.train a ((getCol s.train a).map
            (fun x => if x < percentile (getCol s.train a) l
                      then percentile (getCol s.train a) l else x)) },
          1,
          [(((getCol s.train a).filter
              (fun x => decide (x < percentile (getCol s.train a) l))).length,
            ((((getCol s.train a).filter
              (fun x => decide (x < percentile (getCol s.train a) l))).length : ℕ) : ℚ)
              / ((nrows (setCol s.train a ((getCol s.train a).map
                  (fun x => if x < percentile (getCol s.train a) l
                            then percentile (getCol s.train a) l else x))) : ℕ) : ℚ)
              * 100)]⟩)
    ∧ (∀ l u, Feature.outliers_fix a (some l) (some u) s =
        ⟨(Feature.outliers_fix a (some l) none
            (Feature.outliers_fix a none (some u) s).st).st,
          (Feature.outliers_fix a none (some u) s).dataN
            + (Feature.outliers_fix a (some l) none
                (Feature.outliers_fix a none (some u) s).st).dataN,
          (Feature.outliers_fix a none (some u) s).reports
            ++ (Feature.outliers_fix a (some l) none
                (Feature.outliers_fix a none (some u) s).st).reports⟩) := by
  refine ⟨?_, ?_, ?_, ?_⟩
  · intro lower upper
    cases lower <;> cases upper <;>
      simp only [Feature.outliers_fix] <;> split_ifs <;> rfl
  · intro u hu
    simp only [Feature.outliers_fix, if_neg hu]
  · intro l hl
    simp only [Feature.outliers_fix, if_neg hl]
    rfl
  · intro l u
    by_cases hu : u = 0 <;> by_cases hl : l = 0 <;>
      simp [Feature.outliers_fix, hu, hl]

/-- Witness for C6: the theorem applied at the concrete call
`outliers_fix("x", upper=95)` on `sQ`, discharging the non-zero
hypothesis. -/
theorem C6_outliers_fix_clamps_witness :
    Feature.outliers_fix "x" none (some 95) sQ =
      ⟨{ sQ with train := setCol sQ.train "x" ((getCol sQ.train "x").map
          (fun x => if percentile (getCol sQ.train "x") 95 < x
                    then percentile (getCol sQ.train "x") 95 else x)) },
        1,
        [(((getCol sQ.train "x").filter
            (fun x => decide (percentile (getCol sQ.train "x") 95 < x))).length,
          ((((getCol sQ.train "x").filter
            (fun x => decide (percentile (getCol sQ.train "x") 95 < x))).length : ℕ) : ℚ)
            / ((nrows (setCol sQ.train "x" ((getCol sQ.train "x").map
                (fun x => if percentile (getCol sQ.train "x") 95 < x
                          then percentile (getCol sQ.train "x") 95 else x))) : ℕ) : ℚ)
            * 100)]⟩ :=
  (C6_outliers_fix_clamps "x" sQ).2.1 95 (by decide)

end Speedml

